import Mathlib

/-!
Shallow embedding of the frontier / antichain machinery of
`src/src/progress/frontier.rs` and the configuration resolution of
`src/communication/src/initialize.rs`, together with proofs of the
specification's claims about them.

Timestamps are an abstract type `T` with decidable equality.  The
`PartialOrder` capability of the source is modelled by an explicit
boolean function `le` (the trait's `less_equal`); the secondary total
order (`Ord`) used by `MutableAntichain` is a second boolean function
`leT`.  The laws both must satisfy are collected in `OrderLaws` and are
hypotheses of the theorems that need them.
-/

namespace Timely

variable {T : Type} [DecidableEq T]

/-- Modelled from the spec: the `PartialOrder` trait lives in `src/order.rs`,
which is not under `src/`; the spec defines
`less_than(a,b) ≡ less_equal(a,b) ∧ ¬less_equal(b,a)`. -/
def less_than (le : T → T → Bool) (a b : T) : Bool :=
  le a b && !(le b a)

/-- `Antichain` of `src/src/progress/frontier.rs`: a vector of elements. -/
structure Antichain (T : Type) where
  elements : List T
deriving DecidableEq

namespace Antichain

/-- `Antichain::new`. -/
def new : Antichain T := { elements := [] }

/-- `Antichain::from_elem`. -/
def from_elem (element : T) : Antichain T := { elements := [element] }

/-- `Antichain::insert`: if no present element is `less_equal` the new one,
retain the elements the new one is not `less_equal` to, push it, and return
true; otherwise leave the antichain unchanged and return false. -/
def insert (le : T → T → Bool) (s : Antichain T) (element : T) :
    Antichain T × Bool :=
  if !(s.elements.any (fun x => le x element)) then
    ({ elements := s.elements.filter (fun x => !(le element x)) ++ [element] }, true)
  else
    (s, false)

/-- `Antichain::less_than`. -/
def less_than_q (le : T → T → Bool) (s : Antichain T) (time : T) : Bool :=
  s.elements.any (fun x => less_than le x time)

/-- `Antichain::less_equal`. -/
def less_equal_q (le : T → T → Bool) (s : Antichain T) (time : T) : Bool :=
  s.elements.any (fun x => le x time)

end Antichain

/-- `MutableAntichain` of `src/src/progress/frontier.rs`.  The scratch
vector `frontier_temp` is empty between the method calls modelled here, so
it is not part of the state. -/
structure MutableAntichain (T : Type) where
  dirty : Nat
  updates : List (T × Int)
  frontier : List T
deriving DecidableEq

namespace MutableAntichain

/-- `MutableAntichain::new`. -/
def new : MutableAntichain T :=
  { dirty := 0, updates := [], frontier := [] }

/-- `MutableAntichain::new_bottom`. -/
def new_bottom (bottom : T) : MutableAntichain T :=
  { dirty := 0, updates := [(bottom, 1)], frontier := [bottom] }

/-- `MutableAntichain::clear`. -/
def clear (_s : MutableAntichain T) : MutableAntichain T :=
  { dirty := 0, updates := [], frontier := [] }

/-- `MutableAntichain::empty`: zero out every delta and mark everything dirty. -/
def empty (s : MutableAntichain T) : MutableAntichain T :=
  { s with updates := s.updates.map (fun td => (td.1, 0)),
           dirty := s.updates.length }

/-- `MutableAntichain::update_dirty`. -/
def update_dirty (s : MutableAntichain T) (time : T) (delta : Int) :
    MutableAntichain T :=
  { s with updates := s.updates ++ [(time, delta)], dirty := s.dirty + 1 }

/-- Net delta summed over the entries of a list of updates whose timestamp
equals the queried time (the body of `MutableAntichain::count_for`). -/
def count_in (l : List (T × Int)) (q : T) : Int :=
  ((l.filter (fun td => decide (td.1 = q))).map Prod.snd).sum

/-- `MutableAntichain::count_for`. -/
def count_for (s : MutableAntichain T) (query_time : T) : Int :=
  count_in s.updates query_time

/-- The consolidation loop of `MutableAntichain::rebuild_and` from entry
`x` onwards: when the next entry has an equal timestamp the delta is folded
forward and the absorbed entry keeps a zero delta. -/
def coalesce_from (x : T × Int) : List (T × Int) → List (T × Int)
  | [] => [x]
  | y :: rest =>
    if x.1 = y.1 then
      (x.1, 0) :: coalesce_from (y.1, y.2 + x.2) rest
    else
      x :: coalesce_from y rest

/-- The whole consolidation loop of `MutableAntichain::rebuild_and`:
adjacent entries with equal timestamps are folded forward. -/
def coalesce : List (T × Int) → List (T × Int)
  | [] => []
  | x :: rest => coalesce_from x rest

/-- The ordering on update entries used by `sort_by(|x,y| x.0.cmp(&y.0))`. -/
def updRel (leT : T → T → Bool) (a b : T × Int) : Prop :=
  leT a.1 b.1 = true

instance (leT : T → T → Bool) : DecidableRel (updRel leT) :=
  fun _ _ => instDecidableEqBool _ _

/-- Sort and consolidate updates and retain the non-zero accumulations
(the first phase of `MutableAntichain::rebuild_and`). -/
def consolidated (leT : T → T → Bool) (l : List (T × Int)) : List (T × Int) :=
  if l.isEmpty then l
  else (coalesce (List.insertionSort (updRel leT) l)).filter
    (fun td => !(decide (td.2 = 0)))

/-- One step of the frontier-building loop of `rebuild_and`: push the
timestamp unless some already-kept element is `less_equal` to it. -/
def build_step (le : T → T → Bool) (acc : List T) (td : T × Int) : List T :=
  if acc.any (fun f => le f td.1) then acc else acc ++ [td.1]

/-- Build the new frontier from consolidated updates using the strictly
positive entries (second phase of `rebuild_and`). -/
def build_frontier (le : T → T → Bool) (l : List (T × Int)) : List T :=
  (l.filter (fun td => decide (0 < td.2))).foldl (build_step le) []

/-- The `action` callbacks emitted by `rebuild_and`: `-1` for each old
frontier element absent from the new frontier, then `+1` for each new
frontier element absent from the old frontier. -/
def frontier_changes (oldF newF : List T) : List (T × Int) :=
  (oldF.filter (fun t => !(decide (t ∈ newF)))).map (fun t => (t, (-1 : Int)))
    ++ (newF.filter (fun t => !(decide (t ∈ oldF)))).map (fun t => (t, (1 : Int)))

/-- `MutableAntichain::rebuild_and`, returning the new state together with
the list of `action` callbacks in emission order. -/
def rebuild_and (le leT : T → T → Bool) (s : MutableAntichain T) :
    MutableAntichain T × List (T × Int) :=
  let updates' := consolidated leT s.updates
  let frontier' := build_frontier le updates'
  ({ s with updates := updates', frontier := frontier' },
   frontier_changes s.frontier frontier')

/-- The trailing `dirty` entries of `updates`, scanned by `update_iter_and`. -/
def dirty_suffix (s : MutableAntichain T) : List (T × Int) :=
  s.updates.drop (s.updates.length - s.dirty)

/-- The per-entry test of the rebuild-decision loop in `update_iter_and`:
an entry is NOT safely ignorable when it is neither strictly beyond the
frontier nor a negative delta strictly before the frontier. -/
def non_ignorable (le : T → T → Bool) (frontier : List T) (td : T × Int) : Bool :=
  let beyond_frontier := frontier.any (fun f => less_than le f td.1)
  let before_frontier := !(frontier.any (fun f => le f td.1))
  !(beyond_frontier || (decide (td.2 < 0) && before_frontier))

/-- The rebuild-decision loop of `update_iter_and`: scan the dirty suffix
from oldest to newest, stopping at the first entry that is not safely
ignorable. -/
def scan_dirty (le : T → T → Bool) (frontier : List T) :
    List (T × Int) → Bool
  | [] => false
  | td :: rest =>
    if non_ignorable le frontier td then true else scan_dirty le frontier rest

/-- `MutableAntichain::update_iter_and`, returning the new state together
with the list of `action` callbacks in emission order. -/
def update_iter_and (le leT : T → T → Bool) (s : MutableAntichain T)
    (batch : List (T × Int)) : MutableAntichain T × List (T × Int) :=
  let s1 : MutableAntichain T :=
    { s with updates := s.updates ++ batch, dirty := s.dirty + batch.length }
  let rebuild_required := scan_dirty le s1.frontier (dirty_suffix s1)
  let s2 : MutableAntichain T := { s1 with dirty := 0 }
  if rebuild_required then rebuild_and le leT s2 else (s2, [])

/-- `MutableAntichain::update_iter`. -/
def update_iter (le leT : T → T → Bool) (s : MutableAntichain T)
    (batch : List (T × Int)) : MutableAntichain T :=
  (update_iter_and le leT s batch).1

/-- `MutableAntichain::frontier`, whose `debug_assert_eq!(self.dirty, 0)`
is modelled by returning `none` exactly when the assertion fires. -/
def frontier_q (s : MutableAntichain T) : Option (List T) :=
  if s.dirty = 0 then some s.frontier else none

/-- `MutableAntichain::is_empty`, with its debug assertion as `none`. -/
def is_empty_q (s : MutableAntichain T) : Option Bool :=
  if s.dirty = 0 then some s.frontier.isEmpty else none

/-- `MutableAntichain::less_than`, with its debug assertion as `none`. -/
def less_than_q (le : T → T → Bool) (s : MutableAntichain T) (time : T) :
    Option Bool :=
  if s.dirty = 0 then some (s.frontier.any (fun x => less_than le x time)) else none

/-- `MutableAntichain::less_equal`, with its debug assertion as `none`. -/
def less_equal_q (le : T → T → Bool) (s : MutableAntichain T) (time : T) :
    Option Bool :=
  if s.dirty = 0 then some (s.frontier.any (fun x => le x time)) else none

/-- `MutableAntichain::count_for` carries no debug assertion: it succeeds
in every state, dirty or clean. -/
def count_for_q (s : MutableAntichain T) (query_time : T) : Option Int :=
  some (count_for s query_time)

end MutableAntichain

/-- `Configuration` of `src/communication/src/initialize.rs`. -/
inductive Configuration
  | thread
  | process (threads : Nat)
  | cluster (threads : Nat) (process : Nat) (addresses : List String) (report : Bool)
deriving DecidableEq

/-- Outcome of `Configuration::from_args` on already-parsed options:
`ok` for `Ok(..)`, `err` for the `Err(String)` produced from a `getopts`
parse failure, and `fatal` for an `assert!`/`panic!` abort. -/
inductive ArgsResult
  | ok (c : Configuration)
  | err (msg : String)
  | fatal (msg : String)
deriving DecidableEq

/-- True exactly on the `Err` results of `from_args`. -/
def ArgsResult.is_err : ArgsResult → Bool
  | .err _ => true
  | _ => false

/-- The synthesized host list `localhost:2101, localhost:2102, ...`. -/
def default_addresses (processes : Nat) : List String :=
  (List.range processes).map (fun index => "localhost:" ++ toString (2101 + index))

/-- `Configuration::from_args` after `getopts` has succeeded and the
numeric options have been resolved.  `hostfile` is `some lines` when `-h`
was supplied and names a readable file with those lines. -/
def from_args (threads process processes : Nat)
    (hostfile : Option (List String)) (report : Bool) : ArgsResult :=
  if process < processes then
    if 1 < processes then
      match hostfile with
      | some lines =>
        let addresses := lines.take processes
        if addresses.length < processes then
          .fatal "could only read fewer addresses than -n"
        else if processes = addresses.length then
          .ok (.cluster threads process addresses report)
        else
          .fatal "assertion failed: processes == addresses.len()"
      | none =>
        let addresses := default_addresses processes
        if processes = addresses.length then
          .ok (.cluster threads process addresses report)
        else
          .fatal "assertion failed: processes == addresses.len()"
    else if 1 < threads then .ok (.process threads)
    else .ok .thread
  else
    .fatal "assertion failed: process < processes"

/-- Resolution of an absent or unparsable option to its default
(`unwrap_or` in the source): threads 1, process 0, processes 1. -/
def from_args_opts (w p n : Option Nat) (hostfile : Option (List String))
    (report : Bool) : ArgsResult :=
  from_args (w.getD 1) (p.getD 0) (n.getD 1) hostfile report

/-- The laws the source requires of the `PartialOrder` capability `le`
(reflexive, antisymmetric, transitive) and of the secondary total order
`leT` (`Ord`), which must refine `le`. -/
structure OrderLaws (le leT : T → T → Bool) : Prop where
  le_refl : ∀ a, le a a = true
  le_antisymm : ∀ a b, le a b = true → le b a = true → a = b
  le_trans : ∀ a b c, le a b = true → le b c = true → le a c = true
  leT_total : ∀ a b, leT a b = true ∨ leT b a = true
  leT_trans : ∀ a b c, leT a b = true → leT b c = true → leT a c = true
  leT_antisymm : ∀ a b, leT a b = true → leT b a = true → a = b
  refines : ∀ a b, le a b = true → leT a b = true

/-- The order on `u64`/`usize` timestamps, used for concrete scenarios. -/
def natLe (a b : Nat) : Bool := decide (a ≤ b)

theorem natLe_laws : OrderLaws natLe natLe := by
  constructor <;> intros <;> simp [natLe] at * <;> omega

namespace MutableAntichain

theorem count_in_nil (q : T) : count_in ([] : List (T × Int)) q = 0 := rfl

theorem count_in_cons (td : T × Int) (l : List (T × Int)) (q : T) :
    count_in (td :: l) q = (if td.1 = q then td.2 else 0) + count_in l q := by
  by_cases h : td.1 = q <;> simp [count_in, List.filter_cons, h]

theorem count_in_append (l₁ l₂ : List (T × Int)) (q : T) :
    count_in (l₁ ++ l₂) q = count_in l₁ q + count_in l₂ q := by
  simp [count_in, List.filter_append]

theorem count_in_of_not_mem {l : List (T × Int)} {q : T}
    (h : q ∉ l.map Prod.fst) : count_in l q = 0 := by
  induction l with
  | nil => rfl
  | cons td l ih =>
    simp only [List.map_cons, List.mem_cons] at h
    push_neg at h
    rw [count_in_cons, if_neg (fun he => h.1 he.symm), ih h.2]
    simp

theorem mem_of_count_in_ne_zero {l : List (T × Int)} {q : T}
    (h : count_in l q ≠ 0) : q ∈ l.map Prod.fst := by
  by_contra hq
  exact h (count_in_of_not_mem hq)

theorem count_in_perm {l₁ l₂ : List (T × Int)} (h : l₁.Perm l₂) (q : T) :
    count_in l₁ q = count_in l₂ q :=
  List.Perm.sum_eq ((h.filter _).map _)

theorem count_in_coalesce_from (q : T) :
    ∀ (l : List (T × Int)) (x : T × Int),
      count_in (coalesce_from x l) q = count_in (x :: l) q := by
  intro l
  induction l with
  | nil => intro x; rfl
  | cons y rest ih =>
    intro x
    rw [coalesce_from]
    by_cases h : x.1 = y.1
    · rw [if_pos h]
      simp only [count_in_cons, ih]
      by_cases hq : y.1 = q
      · have hx : x.1 = q := by rw [h]; exact hq
        simp only [hq, hx, if_pos]
        ring
      · have hx : ¬(x.1 = q) := by rw [h]; exact hq
        simp [hq, hx]
    · rw [if_neg h]
      simp only [count_in_cons, ih]

theorem count_in_coalesce (l : List (T × Int)) (q : T) :
    count_in (coalesce l) q = count_in l q := by
  cases l with
  | nil => rfl
  | cons x rest => exact count_in_coalesce_from q rest x

theorem count_in_filter_ne_zero (l : List (T × Int)) (q : T) :
    count_in (l.filter (fun td => !(decide (td.2 = 0)))) q = count_in l q := by
  induction l with
  | nil => rfl
  | cons td l ih =>
    by_cases h : td.2 = 0
    · rw [List.filter_cons_of_neg (by simp [h]), ih, count_in_cons]
      by_cases hq : td.1 = q <;> simp [hq, h]
    · rw [List.filter_cons_of_pos (by simp [h]), count_in_cons, ih, count_in_cons]

theorem count_in_zeroed (l : List (T × Int)) (q : T) :
    count_in (l.map (fun td => (td.1, (0 : Int)))) q = 0 := by
  induction l with
  | nil => rfl
  | cons td l ih =>
    rw [List.map_cons, count_in_cons, ih]
    by_cases hq : td.1 = q <;> simp [hq]

theorem count_in_of_nodup {l : List (T × Int)} {t : T} {d : Int}
    (hnd : (l.map Prod.fst).Nodup) (hmem : (t, d) ∈ l) : count_in l t = d := by
  induction l with
  | nil => cases hmem
  | cons td l ih =>
    rw [List.map_cons, List.nodup_cons] at hnd
    rcases List.mem_cons.mp hmem with h | h
    · have ht : td.1 = t := by rw [← h]
      rw [count_in_cons, if_pos ht,
        count_in_of_not_mem (ht ▸ hnd.1), ← h, add_zero]
    · have ht : td.1 ≠ t := by
        intro he
        exact hnd.1 (he ▸ List.mem_map_of_mem Prod.fst h)
      rw [count_in_cons, if_neg ht, ih hnd.2 h, zero_add]

theorem coalesce_from_map_fst :
    ∀ (l : List (T × Int)) (x : T × Int),
      (coalesce_from x l).map Prod.fst = (x :: l).map Prod.fst := by
  intro l
  induction l with
  | nil => intro x; rfl
  | cons y rest ih =>
    intro x
    rw [coalesce_from]
    by_cases h : x.1 = y.1
    · rw [if_pos h]
      simp [ih]
    · rw [if_neg h]
      simp [ih]

theorem coalesce_map_fst (l : List (T × Int)) :
    (coalesce l).map Prod.fst = l.map Prod.fst := by
  cases l with
  | nil => rfl
  | cons x rest => exact coalesce_from_map_fst rest x

/-- Mutual incomparability of a frontier: no element is `less_equal`
another distinct element. -/
def IsFrontierAntichain (le : T → T → Bool) (F : List T) : Prop :=
  ∀ f ∈ F, ∀ g ∈ F, le f g = true → f = g

/-- `F` is a correct frontier for the updates `l`: every element of `F`
has strictly positive net count, and every timestamp with strictly
positive net count is dominated by some element of `F`. -/
def FrontierFor (le : T → T → Bool) (F : List T) (l : List (T × Int)) : Prop :=
  (∀ f ∈ F, 0 < count_in l f) ∧
  (∀ u, 0 < count_in l u → ∃ f ∈ F, le f u = true)

/-- A dominating antichain of positive-count elements is exactly the
minimal antichain of the set of positive-count timestamps. -/
theorem frontier_min_iff {le leT : T → T → Bool} (H : OrderLaws le leT)
    {F : List T} {l : List (T × Int)} (hA : IsFrontierAntichain le F)
    (hFF : FrontierFor le F l) (t : T) :
    t ∈ F ↔ (0 < count_in l t ∧
      ∀ u, 0 < count_in l u → le u t = true → u = t) := by
  constructor
  · intro htF
    refine ⟨hFF.1 t htF, fun u hu hut => ?_⟩
    obtain ⟨g, hgF, hgu⟩ := hFF.2 u hu
    have hgt : le g t = true := H.le_trans _ _ _ hgu hut
    have hg : g = t := hA g hgF t htF hgt
    subst hg
    exact H.le_antisymm _ _ hut hgu
  · intro ⟨hpos, hmin⟩
    obtain ⟨f, hfF, hft⟩ := hFF.2 t hpos
    have hf : f = t := hmin f (hFF.1 f hfF) hft
    exact hf ▸ hfF

/-- Consolidating a list that is sorted by the total order yields entries
with strictly increasing (in particular pairwise distinct) timestamps. -/
theorem coalesce_from_pairwise {le leT : T → T → Bool} (H : OrderLaws le leT) :
    ∀ (l : List (T × Int)) (x : T × Int),
      List.Pairwise (updRel leT) (x :: l) →
      List.Pairwise (fun a b : T × Int => leT a.1 b.1 = true ∧ a.1 ≠ b.1)
        ((coalesce_from x l).filter (fun td => !(decide (td.2 = 0)))) := by
  intro l
  induction l with
  | nil =>
    intro x _
    by_cases hx : x.2 = 0
    · rw [coalesce_from, List.filter_cons_of_neg (by simp [hx])]
      exact List.Pairwise.nil
    · rw [coalesce_from, List.filter_cons_of_pos (by simp [hx])]
      simp
  | cons y rest ih =>
    intro x hs
    obtain ⟨hxy, hyr⟩ := List.pairwise_cons.mp hs
    rw [coalesce_from]
    by_cases h : x.1 = y.1
    · rw [if_pos h, List.filter_cons_of_neg (by simp)]
      obtain ⟨hy, hrest⟩ := List.pairwise_cons.mp hyr
      exact ih (y.1, y.2 + x.2)
        (List.pairwise_cons.mpr ⟨fun z hz => hy z hz, hrest⟩)
    · rw [if_neg h]
      by_cases hx : x.2 = 0
      · rw [List.filter_cons_of_neg (by simp [hx])]
        exact ih y hyr
      · rw [List.filter_cons_of_pos (by simp [hx])]
        refine List.pairwise_cons.mpr ⟨?_, ih y hyr⟩
        intro b hb
        have hb1 : b.1 ∈ (y :: rest).map Prod.fst := by
          have hbc : b ∈ coalesce_from y rest := List.mem_of_mem_filter hb
          have hbm := List.mem_map_of_mem Prod.fst hbc
          rwa [coalesce_from_map_fst rest y] at hbm
        obtain ⟨z, hz, hz1⟩ := List.mem_map.mp hb1
        have hxz : leT x.1 z.1 = true := hxy z hz
        refine ⟨by rw [← hz1]; exact hxz, ?_⟩
        rw [← hz1]
        rcases List.mem_cons.mp hz with hzy | hzr
        · subst hzy
          exact h
        · intro he
          have hyz : leT y.1 z.1 = true := (List.pairwise_cons.mp hyr).1 z hzr
          have hyx : leT y.1 x.1 = true := by rw [he]; exact hyz
          have hxy1 : leT x.1 y.1 = true := hxy y (List.mem_cons_self y rest)
          exact h (H.leT_antisymm _ _ hxy1 hyx)

theorem consolidated_pairwise {le leT : T → T → Bool} (H : OrderLaws le leT)
    {l : List (T × Int)} (hs : List.Pairwise (updRel leT) l) :
    List.Pairwise (fun a b : T × Int => leT a.1 b.1 = true ∧ a.1 ≠ b.1)
      ((coalesce l).filter (fun td => !(decide (td.2 = 0)))) := by
  cases l with
  | nil => exact List.Pairwise.nil
  | cons x rest => exact coalesce_from_pairwise H rest x hs

/-- Sorting and consolidating preserves every net count and produces
strictly increasing timestamps. -/
theorem consolidated_spec {le leT : T → T → Bool} (H : OrderLaws le leT)
    (l : List (T × Int)) :
    (∀ q, count_in (consolidated leT l) q = count_in l q) ∧
    List.Pairwise (fun a b : T × Int => leT a.1 b.1 = true ∧ a.1 ≠ b.1)
      (consolidated leT l) := by
  unfold consolidated
  by_cases hl : l.isEmpty
  · rw [if_pos hl]
    refine ⟨fun q => rfl, ?_⟩
    rw [List.isEmpty_iff.mp hl]
    exact List.Pairwise.nil
  · rw [if_neg hl]
    haveI : IsTotal (T × Int) (updRel leT) := ⟨fun a b => H.leT_total a.1 b.1⟩
    haveI : IsTrans (T × Int) (updRel leT) :=
      ⟨fun a b c => H.leT_trans a.1 b.1 c.1⟩
    have hperm : (List.insertionSort (updRel leT) l).Perm l :=
      List.perm_insertionSort _ l
    have hsorted : List.Pairwise (updRel leT)
        (List.insertionSort (updRel leT) l) :=
      List.sorted_insertionSort _ l
    refine ⟨fun q => ?_, consolidated_pairwise H hsorted⟩
    rw [count_in_filter_ne_zero, count_in_coalesce]
    exact count_in_perm hperm q

/-- Strictly increasing timestamps in particular are duplicate-free. -/
theorem nodup_fst_of_strict {leT : T → T → Bool} {l : List (T × Int)}
    (hp : List.Pairwise (fun a b : T × Int => leT a.1 b.1 = true ∧ a.1 ≠ b.1) l) :
    (l.map Prod.fst).Nodup :=
  List.pairwise_map.mpr (hp.imp (fun h => h.2))

/-- Invariant of the frontier-building fold of `rebuild_and`: over entries
with strictly increasing timestamps, starting from a separated antichain
accumulator, the fold keeps the accumulator, only adds scanned timestamps,
dominates every scanned entry, and stays a duplicate-free antichain. -/
theorem build_fold_inv {le leT : T → T → Bool} (H : OrderLaws le leT) :
    ∀ (l : List (T × Int)) (acc : List T),
      List.Pairwise (fun a b : T × Int => leT a.1 b.1 = true ∧ a.1 ≠ b.1) l →
      (∀ td ∈ l, ∀ f ∈ acc, le td.1 f = false ∧ td.1 ≠ f) →
      IsFrontierAntichain le acc → acc.Nodup →
      (∀ f ∈ l.foldl (build_step le) acc, f ∈ acc ∨ f ∈ l.map Prod.fst) ∧
      (∀ f ∈ acc, f ∈ l.foldl (build_step le) acc) ∧
      (∀ td ∈ l, ∃ f ∈ l.foldl (build_step le) acc, le f td.1 = true) ∧
      IsFrontierAntichain le (l.foldl (build_step le) acc) ∧
      (l.foldl (build_step le) acc).Nodup := by
  intro l
  induction l with
  | nil =>
    intro acc _ _ hA hnd
    exact ⟨fun f hf => Or.inl hf, fun f hf => hf,
      fun td h => absurd h (List.not_mem_nil td), hA, hnd⟩
  | cons td rest ih =>
    intro acc hp hsep hA hnd
    obtain ⟨hhead, hptail⟩ := List.pairwise_cons.mp hp
    rw [List.foldl_cons]
    by_cases hany : acc.any (fun f => le f td.1)
    · rw [show build_step le acc td = acc from by rw [build_step, if_pos hany]]
      have hsep' : ∀ td' ∈ rest, ∀ f ∈ acc, le td'.1 f = false ∧ td'.1 ≠ f :=
        fun td' h f hf => hsep td' (List.mem_cons_of_mem td h) f hf
      obtain ⟨h1, h2, h3, h4, h5⟩ := ih acc hptail hsep' hA hnd
      refine ⟨?_, h2, ?_, h4, h5⟩
      · intro f hf
        rcases h1 f hf with h | h
        · exact Or.inl h
        · exact Or.inr (by simp only [List.map_cons, List.mem_cons]; exact Or.inr h)
      · intro td' h
        rcases List.mem_cons.mp h with he | h
        · subst he
          obtain ⟨f, hf, hle⟩ := List.any_eq_true.mp hany
          exact ⟨f, h2 f hf, hle⟩
        · exact h3 td' h
    · rw [show build_step le acc td = acc ++ [td.1] from by rw [build_step, if_neg hany]]
      have hnotle : ∀ f ∈ acc, ¬(le f td.1 = true) := by
        intro f hf hc
        exact hany (List.any_eq_true.mpr ⟨f, hf, hc⟩)
      have hsep1 : ∀ td' ∈ rest, ∀ f ∈ acc ++ [td.1],
          le td'.1 f = false ∧ td'.1 ≠ f := by
        intro td' h f hf
        rcases List.mem_append.mp hf with hfa | hfs
        · exact hsep td' (List.mem_cons_of_mem td h) f hfa
        · have hf1 : f = td.1 := by simpa using hfs
          subst hf1
          obtain ⟨hlt, hne⟩ := hhead td' h
          constructor
          · rcases Bool.eq_false_or_eq_true (le td'.1 td.1) with hb | hb
            · exact absurd (H.leT_antisymm _ _ hlt (H.refines _ _ hb)) hne
            · exact hb
          · exact fun he => hne he.symm
      have hA1 : IsFrontierAntichain le (acc ++ [td.1]) := by
        intro f hf g hg hfg
        rcases List.mem_append.mp hf with hfa | hfs
        · rcases List.mem_append.mp hg with hga | hgs
          · exact hA f hfa g hga hfg
          · have hg1 : g = td.1 := by simpa using hgs
            subst hg1
            exact absurd hfg (hnotle f hfa)
        · have hf1 : f = td.1 := by simpa using hfs
          subst hf1
          rcases List.mem_append.mp hg with hga | hgs
          · have hlef := (hsep td (List.mem_cons_self td rest) g hga).1
            rw [hlef] at hfg
            cases hfg
          · exact (show g = td.1 by simpa using hgs).symm
      have hnd1 : (acc ++ [td.1]).Nodup := by
        rw [List.nodup_append]
        refine ⟨hnd, List.nodup_singleton _, ?_⟩
        intro a ha hb
        have ha1 : a = td.1 := by simpa using hb
        rw [ha1] at ha
        exact (hsep td (List.mem_cons_self td rest) td.1 ha).2 rfl
      obtain ⟨h1, h2, h3, h4, h5⟩ := ih (acc ++ [td.1]) hptail hsep1 hA1 hnd1
      refine ⟨?_, ?_, ?_, h4, h5⟩
      · intro f hf
        rcases h1 f hf with h | h
        · rcases List.mem_append.mp h with ha | hs
          · exact Or.inl ha
          · refine Or.inr ?_
            simp only [List.map_cons, List.mem_cons]
            exact Or.inl (show f = td.1 by simpa using hs)
        · refine Or.inr ?_
          simp only [List.map_cons, List.mem_cons]
          exact Or.inr h
      · intro f hf
        exact h2 f (List.mem_append.mpr (Or.inl hf))
      · intro td' h
        rcases List.mem_cons.mp h with he | h
        · subst he
          exact ⟨td'.1, h2 td'.1 (List.mem_append.mpr (Or.inr (by simp))),
            H.le_refl _⟩
        · exact h3 td' h

/-- `rebuild_and` preserves every net count, leaves `dirty` untouched, and
recomputes `frontier` as a duplicate-free dominating antichain of the
positive-count timestamps of the consolidated updates. -/
theorem rebuild_spec {le leT : T → T → Bool} (H : OrderLaws le leT)
    (s : MutableAntichain T) :
    (∀ q, count_in (rebuild_and le leT s).1.updates q = count_for s q) ∧
    FrontierFor le (rebuild_and le leT s).1.frontier
      (rebuild_and le leT s).1.updates ∧
    IsFrontierAntichain le (rebuild_and le leT s).1.frontier ∧
    (rebuild_and le leT s).1.frontier.Nodup ∧
    (∀ f ∈ (rebuild_and le leT s).1.frontier,
      f ∈ (rebuild_and le leT s).1.updates.map Prod.fst) ∧
    (rebuild_and le leT s).1.dirty = s.dirty ∧
    (rebuild_and le leT s).1.frontier =
      build_frontier le (consolidated leT s.updates) ∧
    (rebuild_and le leT s).1.updates = consolidated leT s.updates := by
  obtain ⟨hcount, hpair⟩ := consolidated_spec H s.updates
  have hru : (rebuild_and le leT s).1.updates = consolidated leT s.updates := rfl
  have hrf : (rebuild_and le leT s).1.frontier =
      build_frontier le (consolidated leT s.updates) := rfl
  have hrd : (rebuild_and le leT s).1.dirty = s.dirty := rfl
  set cs := consolidated leT s.updates with hcs
  have hndf : (cs.map Prod.fst).Nodup := nodup_fst_of_strict hpair
  have hpairpos : List.Pairwise
      (fun a b : T × Int => leT a.1 b.1 = true ∧ a.1 ≠ b.1)
      (cs.filter (fun td => decide (0 < td.2))) := hpair.filter _
  obtain ⟨h1, _h2, h3, h4, h5⟩ := build_fold_inv H
    (cs.filter (fun td => decide (0 < td.2))) [] hpairpos
    (fun td _ f hf => absurd hf (List.not_mem_nil f))
    (fun f hf => absurd hf (List.not_mem_nil f)) List.nodup_nil
  have hbf : build_frontier le cs =
      (cs.filter (fun td => decide (0 < td.2))).foldl (build_step le) [] := rfl
  refine ⟨fun q => by rw [hru]; exact hcount q, ?_, ?_, ?_, ?_, hrd, hrf, hru⟩
  · rw [hrf, hru, hbf]
    constructor
    · intro f hf
      rcases h1 f hf with h | h
      · cases h
      · obtain ⟨td, htd, htd1⟩ := List.mem_map.mp h
        obtain ⟨htdc, htdpos⟩ := List.mem_filter.mp htd
        have hpos : (0 : Int) < td.2 := by simpa using htdpos
        have : count_in cs td.1 = td.2 :=
          count_in_of_nodup hndf (by simpa using htdc)
        rw [← htd1, this]
        exact hpos
    · intro u hu
      have hum : u ∈ cs.map Prod.fst :=
        mem_of_count_in_ne_zero (by omega)
      obtain ⟨td, htd, htd1⟩ := List.mem_map.mp hum
      have hval : count_in cs td.1 = td.2 :=
        count_in_of_nodup hndf (by simpa using htd)
      have hpos : (0 : Int) < td.2 := by rw [← hval, htd1]; exact hu
      have htdf : td ∈ cs.filter (fun td => decide (0 < td.2)) :=
        List.mem_filter.mpr ⟨htd, by simpa using hpos⟩
      obtain ⟨f, hf, hle⟩ := h3 td htdf
      exact ⟨f, hf, htd1 ▸ hle⟩
  · rw [hrf, hbf]
    exact h4
  · rw [hrf, hbf]
    exact h5
  · intro f hf
    rw [hrf, hbf] at hf
    rw [hru]
    rcases h1 f hf with h | h
    · cases h
    · obtain ⟨td, htd, htd1⟩ := List.mem_map.mp h
      exact htd1 ▸ List.mem_map_of_mem Prod.fst (List.mem_of_mem_filter htd)

theorem count_in_snoc (l : List (T × Int)) (td : T × Int) (q : T) :
    count_in (l ++ [td]) q = count_in l q + (if td.1 = q then td.2 else 0) := by
  rw [count_in_append, count_in_cons, count_in_nil, add_zero]

/-- Unfolding of the safely-ignorable test: an entry fails to force a
rebuild exactly when it is strictly beyond the frontier, or is a negative
delta on a time no frontier element is `less_equal` to. -/
theorem non_ignorable_eq_false_iff (le : T → T → Bool) (F : List T)
    (td : T × Int) :
    non_ignorable le F td = false ↔
      ((∃ f ∈ F, le f td.1 = true ∧ le td.1 f = false) ∨
       (td.2 < 0 ∧ ∀ f ∈ F, le f td.1 = false)) := by
  simp only [non_ignorable, less_than, Bool.not_eq_false', Bool.or_eq_true,
    List.any_eq_true, Bool.and_eq_true, decide_eq_true_eq,
    Bool.not_eq_true', List.any_eq_false]
  constructor
  · rintro (⟨f, hf, h1, h2⟩ | ⟨hd, hb⟩)
    · exact Or.inl ⟨f, hf, h1, h2⟩
    · exact Or.inr ⟨hd, fun f hf => Bool.eq_false_iff.mpr (hb f hf)⟩
  · rintro (⟨f, hf, h1, h2⟩ | ⟨hd, hb⟩)
    · exact Or.inl ⟨f, hf, h1, h2⟩
    · exact Or.inr ⟨hd, fun f hf => Bool.eq_false_iff.mp (hb f hf)⟩

/-- A safely ignorable entry appended to the updates does not disturb a
correct frontier. -/
theorem ignorable_extend {le leT : T → T → Bool} (H : OrderLaws le leT)
    {F : List T} {l : List (T × Int)} {td : T × Int}
    (hA : IsFrontierAntichain le F) (hFF : FrontierFor le F l)
    (hig : non_ignorable le F td = false) :
    FrontierFor le F (l ++ [td]) := by
  obtain ⟨t, d⟩ := td
  rw [non_ignorable_eq_false_iff] at hig
  have htF : t ∉ F := by
    intro htF
    rcases hig with ⟨f, hfF, hft, htf⟩ | ⟨_, hbefore⟩
    · have hf : f = t := hA f hfF t htF hft
      subst hf
      rw [H.le_refl] at htf
      cases htf
    · have hc := hbefore t htF
      rw [H.le_refl] at hc
      cases hc
  constructor
  · intro f hfF
    rw [count_in_snoc]
    have hne : (t : T) ≠ f := fun he => htF (he ▸ hfF)
    rw [if_neg hne, add_zero]
    exact hFF.1 f hfF
  · intro u hu
    rw [count_in_snoc] at hu
    by_cases hut : t = u
    · subst hut
      rcases hig with ⟨f, hfF, hft, _⟩ | ⟨hd, hbefore⟩
      · exact ⟨f, hfF, hft⟩
      · rw [if_pos rfl] at hu
        have hpos : 0 < count_in l t := by omega
        obtain ⟨f, hfF, hle⟩ := hFF.2 t hpos
        rw [hbefore f hfF] at hle
        cases hle
    · rw [if_neg hut, add_zero] at hu
      exact hFF.2 u hu

/-- A whole batch of safely ignorable entries appended to the updates does
not disturb a correct frontier. -/
theorem ignorable_extend_all {le leT : T → T → Bool} (H : OrderLaws le leT)
    {F : List T} (hA : IsFrontierAntichain le F) :
    ∀ (batch l : List (T × Int)),
      FrontierFor le F l →
      (∀ td ∈ batch, non_ignorable le F td = false) →
      FrontierFor le F (l ++ batch) := by
  intro batch
  induction batch with
  | nil =>
    intro l h _
    simpa using h
  | cons td rest ih =>
    intro l h hall
    have h1 : FrontierFor le F (l ++ [td]) :=
      ignorable_extend H hA h (hall td (List.mem_cons_self td rest))
    have h2 := ih (l ++ [td]) h1
      (fun td' ht => hall td' (List.mem_cons_of_mem td ht))
    simpa [List.append_assoc] using h2

/-- The early-exit rebuild-decision scan returns false exactly when every
entry of the scanned suffix is safely ignorable. -/
theorem scan_dirty_eq_false_iff (le : T → T → Bool) (F : List T)
    (l : List (T × Int)) :
    scan_dirty le F l = false ↔
      ∀ td ∈ l, non_ignorable le F td = false := by
  induction l with
  | nil => simp [scan_dirty]
  | cons td rest ih =>
    rw [scan_dirty]
    rcases Bool.eq_false_or_eq_true (non_ignorable le F td) with h | h
    · rw [if_pos (by simp [h])]
      constructor
      · intro hc
        cases hc
      · intro hall
        have hc := hall td (List.mem_cons_self td rest)
        rw [h] at hc
        cases hc
    · rw [if_neg (by simp [h]), ih]
      constructor
      · intro hall td' ht
        rcases List.mem_cons.mp ht with he | ht'
        · rw [he]
          exact h
        · exact hall td' ht'
      · intro hall td' ht'
        exact hall td' (List.mem_cons_of_mem td ht')

/-- The early-exit rebuild-decision scan returns true exactly when some
entry of the scanned suffix is not safely ignorable. -/
theorem scan_dirty_eq_true_iff (le : T → T → Bool) (F : List T)
    (l : List (T × Int)) :
    scan_dirty le F l = true ↔
      ∃ td ∈ l, non_ignorable le F td = true := by
  constructor
  · intro h
    by_contra hc
    push_neg at hc
    have hall : ∀ td ∈ l, non_ignorable le F td = false := by
      intro td ht
      exact Bool.eq_false_iff.mpr (hc td ht)
    rw [(scan_dirty_eq_false_iff le F l).mpr hall] at h
    cases h
  · intro ⟨td, htd, hne⟩
    rcases Bool.eq_false_or_eq_true (scan_dirty le F l) with h | h
    · exact h
    · have hc := (scan_dirty_eq_false_iff le F l).mp h td htd
      rw [hne] at hc
      cases hc

theorem dirty_suffix_of_dirty_zero {s : MutableAntichain T}
    (h : s.dirty = 0) : dirty_suffix s = [] := by
  simp [dirty_suffix, h]

theorem dirty_suffix_append (s : MutableAntichain T)
    (batch : List (T × Int)) (h : s.dirty ≤ s.updates.length) :
    dirty_suffix { s with updates := s.updates ++ batch,
                          dirty := s.dirty + batch.length } =
      dirty_suffix s ++ batch := by
  simp only [dirty_suffix, List.length_append]
  rw [show s.updates.length + batch.length - (s.dirty + batch.length) =
      s.updates.length - s.dirty from by omega]
  rw [List.drop_append_eq_append_drop,
    show s.updates.length - s.dirty - s.updates.length = 0 from by omega,
    List.drop_zero]

/-- `update_iter_and` unfolded: append the batch, scan the dirty suffix,
reset `dirty`, and rebuild exactly when the scan demanded it. -/
theorem update_iter_and_eq (le leT : T → T → Bool) (s : MutableAntichain T)
    (batch : List (T × Int)) :
    update_iter_and le leT s batch =
      if scan_dirty le s.frontier (dirty_suffix
          { s with updates := s.updates ++ batch,
                   dirty := s.dirty + batch.length })
      then rebuild_and le leT
          { s with updates := s.updates ++ batch, dirty := 0 }
      else ({ s with updates := s.updates ++ batch, dirty := 0 }, []) := rfl

/-- The state invariant maintained by every `MutableAntichain` method:
`dirty` never exceeds the number of updates; the cached frontier is a
duplicate-free antichain of update timestamps; and, unless some dirty
entry is not safely ignorable, the cached frontier is a correct frontier
for the full updates. -/
def Inv (le : T → T → Bool) (s : MutableAntichain T) : Prop :=
  s.dirty ≤ s.updates.length ∧
  s.frontier.Nodup ∧
  IsFrontierAntichain le s.frontier ∧
  (∀ f ∈ s.frontier, f ∈ s.updates.map Prod.fst) ∧
  ((∀ td ∈ dirty_suffix s, non_ignorable le s.frontier td = false) →
    FrontierFor le s.frontier s.updates)

/-- The states a `MutableAntichain` can reach through its public methods. -/
inductive Reachable (le leT : T → T → Bool) : MutableAntichain T → Prop
  | new : Reachable le leT MutableAntichain.new
  | new_bottom (b : T) : Reachable le leT (MutableAntichain.new_bottom b)
  | clear (s : MutableAntichain T) :
      Reachable le leT s → Reachable le leT (MutableAntichain.clear s)
  | update_dirty (s : MutableAntichain T) (t : T) (d : Int) :
      Reachable le leT s → Reachable le leT (MutableAntichain.update_dirty s t d)
  | empty (s : MutableAntichain T) :
      Reachable le leT s → Reachable le leT (MutableAntichain.empty s)
  | update_iter_and (s : MutableAntichain T) (batch : List (T × Int)) :
      Reachable le leT s →
      Reachable le leT (MutableAntichain.update_iter_and le leT s batch).1

/-- Every reachable `MutableAntichain` state satisfies the invariant. -/
theorem reachable_inv {le leT : T → T → Bool} (H : OrderLaws le leT)
    {s : MutableAntichain T} (hr : Reachable le leT s) : Inv le s := by
  induction hr with
  | new =>
    refine ⟨Nat.le_refl 0, List.nodup_nil,
      fun f hf => absurd hf (List.not_mem_nil f),
      fun f hf => absurd hf (List.not_mem_nil f),
      fun _ => ⟨fun f hf => absurd hf (List.not_mem_nil f), fun u hu => ?_⟩⟩
    rw [show count_in (MutableAntichain.new (T := T)).updates u = 0 from rfl]
      at hu
    exact absurd hu (lt_irrefl 0)
  | new_bottom b =>
    refine ⟨Nat.zero_le 1, List.nodup_singleton b, ?_, ?_, fun _ => ⟨?_, ?_⟩⟩
    · intro f hf g hg _
      rw [List.mem_singleton.mp hf, List.mem_singleton.mp hg]
    · intro f hf
      simpa [MutableAntichain.new_bottom] using hf
    · intro f hf
      rw [List.mem_singleton.mp hf]
      show 0 < count_in [(b, (1 : Int))] b
      rw [count_in_cons, count_in_nil, if_pos rfl]
      norm_num
    · intro u hu
      by_cases hbu : b = u
      · exact ⟨b, List.mem_singleton_self b, by rw [hbu]; exact H.le_refl u⟩
      · exfalso
        have hz : count_in [(b, (1 : Int))] u = 0 := by
          rw [count_in_cons, count_in_nil, if_neg hbu]
          norm_num
        rw [show count_in (MutableAntichain.new_bottom b).updates u =
          count_in [(b, (1 : Int))] u from rfl, hz] at hu
        exact absurd hu (lt_irrefl 0)
  | clear s hs ih =>
    refine ⟨Nat.le_refl 0, List.nodup_nil,
      fun f hf => absurd hf (List.not_mem_nil f),
      fun f hf => absurd hf (List.not_mem_nil f),
      fun _ => ⟨fun f hf => absurd hf (List.not_mem_nil f), fun u hu => ?_⟩⟩
    rw [show count_in (MutableAntichain.clear s).updates u = 0 from rfl] at hu
    exact absurd hu (lt_irrefl 0)
  | update_dirty s t d hs ih =>
    obtain ⟨hdl, hnd, hA, hfst, hcond⟩ := ih
    refine ⟨?_, hnd, hA, ?_, ?_⟩
    · show s.dirty + 1 ≤ (s.updates ++ [(t, d)]).length
      rw [List.length_append]
      simpa using hdl
    · intro f hf
      show f ∈ (s.updates ++ [(t, d)]).map Prod.fst
      rw [List.map_append]
      exact List.mem_append.mpr (Or.inl (hfst f hf))
    · intro hall
      have hsuff : dirty_suffix (MutableAntichain.update_dirty s t d) =
          dirty_suffix s ++ [(t, d)] := by
        have h1 := dirty_suffix_append s [(t, d)] hdl
        simpa [MutableAntichain.update_dirty] using h1
      rw [hsuff] at hall
      have hold : ∀ td ∈ dirty_suffix s,
          non_ignorable le s.frontier td = false :=
        fun td ht => hall td (List.mem_append.mpr (Or.inl ht))
      have hnew : ∀ td ∈ [(t, d)], non_ignorable le s.frontier td = false := by
        intro td ht
        rw [List.mem_singleton.mp ht]
        exact hall (t, d) (List.mem_append.mpr (Or.inr (List.mem_singleton_self _)))
      exact ignorable_extend_all H hA [(t, d)] s.updates (hcond hold) hnew
  | empty s hs ih =>
    obtain ⟨hdl, hnd, hA, hfst, hcond⟩ := ih
    refine ⟨?_, hnd, hA, ?_, ?_⟩
    · show s.updates.length ≤ (s.updates.map (fun td => (td.1, (0 : Int)))).length
      rw [List.length_map]
    · intro f hf
      have h1 := hfst f hf
      show f ∈ (s.updates.map (fun td => (td.1, (0 : Int)))).map Prod.fst
      rw [List.map_map]
      simpa [Function.comp] using h1
    · intro hall
      by_cases hfe : s.frontier = []
      · constructor
        · intro f hf
          rw [show (MutableAntichain.empty s).frontier = s.frontier from rfl,
            hfe] at hf
          exact absurd hf (List.not_mem_nil f)
        · intro u hu
          exfalso
          rw [show count_in (MutableAntichain.empty s).updates u =
            count_in (s.updates.map (fun td => (td.1, (0 : Int)))) u from rfl,
            count_in_zeroed] at hu
          exact absurd hu (lt_irrefl 0)
      · exfalso
        obtain ⟨f0, hf0⟩ := List.exists_mem_of_ne_nil s.frontier hfe
        obtain ⟨td, htd, htd1⟩ := List.mem_map.mp (hfst f0 hf0)
        have hz : (f0, (0 : Int)) ∈ (MutableAntichain.empty s).updates := by
          show (f0, (0 : Int)) ∈ s.updates.map (fun td => (td.1, (0 : Int)))
          exact List.mem_map.mpr ⟨td, htd, by rw [htd1]⟩
        have hsuf : dirty_suffix (MutableAntichain.empty s) =
            (MutableAntichain.empty s).updates := by
          show (MutableAntichain.empty s).updates.drop _ =
            (MutableAntichain.empty s).updates
          rw [show (MutableAntichain.empty s).updates.length -
            (MutableAntichain.empty s).dirty = 0 from by
              simp [MutableAntichain.empty]]
          exact List.drop_zero _
        have hc := hall (f0, 0) (by rw [hsuf]; exact hz)
        rw [non_ignorable_eq_false_iff] at hc
        rcases hc with ⟨f, hfF, hft, htf⟩ | ⟨hd, _⟩
        · have hf : f = f0 := hA f hfF f0 hf0 hft
          subst hf
          rw [H.le_refl] at htf
          cases htf
        · exact absurd hd (by norm_num)
  | update_iter_and s batch hs ih =>
    obtain ⟨hdl, hnd, hA, hfst, hcond⟩ := ih
    rw [update_iter_and_eq]
    have hsuffix : dirty_suffix
        { s with updates := s.updates ++ batch,
                 dirty := s.dirty + batch.length } =
        dirty_suffix s ++ batch := dirty_suffix_append s batch hdl
    rcases Bool.eq_false_or_eq_true (scan_dirty le s.frontier
        (dirty_suffix { s with updates := s.updates ++ batch,
                               dirty := s.dirty + batch.length })) with hscan | hscan
    · rw [if_pos hscan]
      obtain ⟨_, r2, r3, r4, r5, r6, _, _⟩ := rebuild_spec H
        { s with updates := s.updates ++ batch, dirty := 0 }
      exact ⟨by rw [r6]; exact Nat.zero_le _, r4, r3, r5, fun _ => r2⟩
    · rw [if_neg (by simp [hscan])]
      refine ⟨Nat.zero_le _, hnd, hA, ?_, ?_⟩
      · intro f hf
        show f ∈ (s.updates ++ batch).map Prod.fst
        rw [List.map_append]
        exact List.mem_append.mpr (Or.inl (hfst f hf))
      · intro _
        have hall : ∀ td ∈ dirty_suffix s ++ batch,
            non_ignorable le s.frontier td = false := by
          rw [← hsuffix]
          exact (scan_dirty_eq_false_iff le s.frontier _).mp hscan
        have hFF := hcond (fun td ht => hall td (List.mem_append.mpr (Or.inl ht)))
        exact ignorable_extend_all H hA batch s.updates hFF
          (fun td ht => hall td (List.mem_append.mpr (Or.inr ht)))

/-- Both `update_iter` and `update_iter_and` always reset `dirty` to zero. -/
theorem update_iter_and_dirty_zero (le leT : T → T → Bool)
    (s : MutableAntichain T) (batch : List (T × Int)) :
    (update_iter_and le leT s batch).1.dirty = 0 := by
  rw [update_iter_and_eq]
  rcases Bool.eq_false_or_eq_true (scan_dirty le s.frontier
      (dirty_suffix { s with updates := s.updates ++ batch,
                             dirty := s.dirty + batch.length })) with h | h
  · rw [if_pos h]
    rfl
  · rw [if_neg (by simp [h])]

end MutableAntichain

/-- Multiset multiplicity of an element in a list. -/
def occ {α : Type} [DecidableEq α] (a : α) (l : List α) : Nat :=
  (l.filter (fun x => decide (x = a))).length

theorem occ_nil {α : Type} [DecidableEq α] (a : α) : occ a ([] : List α) = 0 :=
  rfl

theorem occ_cons {α : Type} [DecidableEq α] (a b : α) (l : List α) :
    occ a (b :: l) = (if b = a then 1 else 0) + occ a l := by
  by_cases h : b = a <;> simp [occ, List.filter_cons, h, Nat.add_comm]

theorem occ_append {α : Type} [DecidableEq α] (a : α) (l₁ l₂ : List α) :
    occ a (l₁ ++ l₂) = occ a l₁ + occ a l₂ := by
  simp [occ, List.filter_append]

theorem occ_of_not_mem {α : Type} [DecidableEq α] {a : α} {l : List α}
    (h : a ∉ l) : occ a l = 0 := by
  induction l with
  | nil => rfl
  | cons b l ih =>
    simp only [List.mem_cons] at h
    push_neg at h
    rw [occ_cons, if_neg (fun he => h.1 he.symm), ih h.2]

theorem occ_of_nodup_mem {α : Type} [DecidableEq α] {a : α} {l : List α}
    (hnd : l.Nodup) (h : a ∈ l) : occ a l = 1 := by
  induction l with
  | nil => cases h
  | cons b l ih =>
    rw [List.nodup_cons] at hnd
    rcases List.mem_cons.mp h with he | hm
    · rw [occ_cons, if_pos he.symm, occ_of_not_mem (he ▸ hnd.1)]
    · have hne : b ≠ a := fun he => (he ▸ hnd.1) hm
      rw [occ_cons, if_neg hne, ih hnd.2 hm]

theorem occ_map_pair {α : Type} [DecidableEq α] (t : α) (d : Int)
    (l : List α) :
    occ (t, d) (l.map (fun x => (x, d))) = occ t l := by
  induction l with
  | nil => rfl
  | cons b l ih =>
    rw [List.map_cons, occ_cons, occ_cons, ih]
    by_cases h : b = t
    · rw [if_pos h, if_pos (by rw [h])]
    · rw [if_neg h, if_neg (by simp [h])]

theorem occ_map_pair_ne {α : Type} [DecidableEq α] (t : α) {d d' : Int}
    (hne : d ≠ d') (l : List α) :
    occ (t, d) (l.map (fun x => (x, d'))) = 0 := by
  apply occ_of_not_mem
  intro hm
  obtain ⟨x, _, hx⟩ := List.mem_map.mp hm
  exact hne (by injection hx with h1 h2; exact h2.symm)

namespace MutableAntichain

/-- The `-1` callbacks of `rebuild_and` are exactly the old frontier
elements that left the frontier, once each. -/
theorem occ_neg_frontier_changes {oldF newF : List T} (hnd : oldF.Nodup)
    (t : T) :
    occ (t, (-1 : Int)) (frontier_changes oldF newF) =
      if t ∈ oldF ∧ t ∉ newF then 1 else 0 := by
  rw [frontier_changes, occ_append, occ_map_pair,
    occ_map_pair_ne t (by norm_num), Nat.add_zero]
  by_cases hm : t ∈ oldF ∧ t ∉ newF
  · rw [if_pos hm]
    exact occ_of_nodup_mem (hnd.filter _)
      (List.mem_filter.mpr ⟨hm.1, by simp [hm.2]⟩)
  · rw [if_neg hm]
    apply occ_of_not_mem
    intro hmem
    obtain ⟨h1, h2⟩ := List.mem_filter.mp hmem
    exact hm ⟨h1, by simpa using h2⟩

/-- The `+1` callbacks of `rebuild_and` are exactly the new frontier
elements that joined the frontier, once each. -/
theorem occ_pos_frontier_changes {oldF newF : List T} (hnd : newF.Nodup)
    (t : T) :
    occ (t, (1 : Int)) (frontier_changes oldF newF) =
      if t ∈ newF ∧ t ∉ oldF then 1 else 0 := by
  rw [frontier_changes, occ_append,
    occ_map_pair_ne t (by norm_num), Nat.zero_add, occ_map_pair]
  by_cases hm : t ∈ newF ∧ t ∉ oldF
  · rw [if_pos hm]
    exact occ_of_nodup_mem (hnd.filter _)
      (List.mem_filter.mpr ⟨hm.1, by simp [hm.2]⟩)
  · rw [if_neg hm]
    apply occ_of_not_mem
    intro hmem
    obtain ⟨h1, h2⟩ := List.mem_filter.mp hmem
    exact hm ⟨h1, by simpa using h2⟩

theorem frontier_changes_snd (oldF newF : List T) :
    ∀ td ∈ frontier_changes oldF newF, td.2 = 1 ∨ td.2 = -1 := by
  intro td htd
  rcases List.mem_append.mp htd with h | h
  · obtain ⟨x, _, hx⟩ := List.mem_map.mp h
    exact Or.inr (by rw [← hx])
  · obtain ⟨x, _, hx⟩ := List.mem_map.mp h
    exact Or.inl (by rw [← hx])

theorem frontier_changes_eq_nil {oldF newF : List T}
    (h : ∀ u, u ∈ oldF ↔ u ∈ newF) : frontier_changes oldF newF = [] := by
  rw [frontier_changes,
    List.filter_eq_nil_iff.mpr (fun a ha => by simp [(h a).mp ha]),
    List.filter_eq_nil_iff.mpr (fun a ha => by simp [(h a).mpr ha])]
  rfl

/-- C1: for every reachable `MutableAntichain` and every batch, after the
rebuilding call `update_iter_and` the frontier contains exactly the
minimal elements (under `less_equal`) of the set of timestamps whose net
summed delta `count_for` is strictly positive. -/
theorem mutable_antichain_frontier_minimal {le leT : T → T → Bool}
    (H : OrderLaws le leT) {s : MutableAntichain T}
    (hs : Reachable le leT s) (batch : List (T × Int)) (t : T) :
    t ∈ (update_iter_and le leT s batch).1.frontier ↔
      (0 < count_for (update_iter_and le leT s batch).1 t ∧
       ∀ u, 0 < count_for (update_iter_and le leT s batch).1 u →
         le u t = true → u = t) := by
  obtain ⟨_, _, hA, _, hcond⟩ :=
    reachable_inv H (Reachable.update_iter_and s batch hs)
  have hd0 := update_iter_and_dirty_zero le leT s batch
  have hFF := hcond (by
    rw [dirty_suffix_of_dirty_zero hd0]
    intro td htd
    cases htd)
  exact frontier_min_iff H hA hFF t

theorem mutable_antichain_frontier_minimal_witness :
    0 < count_for (update_iter_and natLe natLe (new_bottom 1)
      [((1 : Nat), (-1 : Int)), (2, 1)]).1 2 :=
  ((mutable_antichain_frontier_minimal natLe_laws (Reachable.new_bottom 1)
    [(1, -1), (2, 1)] 2).mp (by decide)).1

/-- C2: `update_iter_and` triggers a full rebuild exactly when some entry
of the trailing dirty suffix is not safely ignorable (the scan may stop at
the first such entry), and `dirty` is reset to zero in every case. -/
theorem update_iter_and_scan_spec (le leT : T → T → Bool)
    (s : MutableAntichain T) (batch : List (T × Int)) :
    (update_iter_and le leT s batch).1.dirty = 0 ∧
    ((∃ td ∈ dirty_suffix { s with updates := s.updates ++ batch,
                                   dirty := s.dirty + batch.length },
        non_ignorable le s.frontier td = true) →
      update_iter_and le leT s batch =
        rebuild_and le leT
          { s with updates := s.updates ++ batch, dirty := 0 }) ∧
    ((∀ td ∈ dirty_suffix { s with updates := s.updates ++ batch,
                                   dirty := s.dirty + batch.length },
        non_ignorable le s.frontier td = false) →
      update_iter_and le leT s batch =
        ({ s with updates := s.updates ++ batch, dirty := 0 }, [])) := by
  refine ⟨update_iter_and_dirty_zero le leT s batch, ?_, ?_⟩
  · intro hex
    rw [update_iter_and_eq, if_pos ((scan_dirty_eq_true_iff _ _ _).mpr hex)]
  · intro hall
    rw [update_iter_and_eq, if_neg (by
      rw [(scan_dirty_eq_false_iff _ _ _).mpr hall]
      simp)]

theorem update_iter_and_scan_spec_witness :
    update_iter_and natLe natLe (new_bottom 1) [((5 : Nat), (1 : Int))] =
      ({ new_bottom 1 with
          updates := (new_bottom (1 : Nat)).updates ++ [(5, 1)],
          dirty := 0 }, []) :=
  (update_iter_and_scan_spec natLe natLe (new_bottom 1) [(5, 1)]).2.2
    (by decide)

/-- C4: during `update_iter_and` every `action` callback carries delta `+1`
or `-1`; counted as a multiset, the callbacks are exactly the difference of
the new and old frontiers (each removed element once with `-1`, each added
element once with `+1`); and no callback occurs when the frontier is
unchanged. -/
theorem update_iter_and_action_deltas {le leT : T → T → Bool}
    (H : OrderLaws le leT) {s : MutableAntichain T}
    (hs : Reachable le leT s) (batch : List (T × Int)) (t : T) :
    (∀ td ∈ (update_iter_and le leT s batch).2, td.2 = 1 ∨ td.2 = -1) ∧
    occ (t, (-1 : Int)) (update_iter_and le leT s batch).2 =
      (if t ∈ s.frontier ∧ t ∉ (update_iter_and le leT s batch).1.frontier
       then 1 else 0) ∧
    occ (t, (1 : Int)) (update_iter_and le leT s batch).2 =
      (if t ∈ (update_iter_and le leT s batch).1.frontier ∧ t ∉ s.frontier
       then 1 else 0) ∧
    ((∀ u, u ∈ s.frontier ↔ u ∈ (update_iter_and le leT s batch).1.frontier) →
      (update_iter_and le leT s batch).2 = []) := by
  obtain ⟨_, hnd, _, _, _⟩ := reachable_inv H hs
  rw [update_iter_and_eq]
  rcases Bool.eq_false_or_eq_true (scan_dirty le s.frontier
      (dirty_suffix { s with updates := s.updates ++ batch,
                             dirty := s.dirty + batch.length })) with hscan | hscan
  · rw [if_pos hscan]
    obtain ⟨_, _, _, hnewnd, _, _, _, _⟩ := rebuild_spec H
      { s with updates := s.updates ++ batch, dirty := 0 }
    have h2 : (rebuild_and le leT
        { s with updates := s.updates ++ batch, dirty := 0 }).2 =
      frontier_changes s.frontier (rebuild_and le leT
        { s with updates := s.updates ++ batch, dirty := 0 }).1.frontier := rfl
    rw [h2]
    exact ⟨frontier_changes_snd _ _, occ_neg_frontier_changes hnd t,
      occ_pos_frontier_changes hnewnd t,
      fun hset => frontier_changes_eq_nil hset⟩
  · rw [if_neg (by simp [hscan])]
    refine ⟨?_, ?_, ?_, fun _ => rfl⟩
    · intro td htd
      cases htd
    · rw [occ_nil, if_neg (fun hc => hc.2 hc.1)]
    · rw [occ_nil, if_neg (fun hc => hc.2 hc.1)]

theorem update_iter_and_action_deltas_witness :
    occ ((1 : Nat), (-1 : Int))
      (update_iter_and natLe natLe (new_bottom 1) [(1, -1), (2, 1)]).2 =
      (if (1 : Nat) ∈ (new_bottom (1 : Nat)).frontier ∧
          (1 : Nat) ∉ (update_iter_and natLe natLe (new_bottom 1)
            [(1, -1), (2, 1)]).1.frontier
       then 1 else 0) :=
  (update_iter_and_action_deltas natLe_laws (Reachable.new_bottom 1)
    [(1, -1), (2, 1)] 1).2.1

/-- C7: while `dirty > 0` each of `frontier`, `is_empty`, `less_than` and
`less_equal` fails its debug assertion (modelled as returning `none`), and
none of them fails when `dirty = 0`; `count_for` carries no precondition
and succeeds in every state. -/
theorem dirty_queries_assert (le : T → T → Bool) (s : MutableAntichain T)
    (t q : T) :
    (0 < s.dirty →
      frontier_q s = none ∧ is_empty_q s = none ∧
      less_than_q le s t = none ∧ less_equal_q le s t = none) ∧
    (s.dirty = 0 →
      frontier_q s = some s.frontier ∧
      (is_empty_q s).isSome = true ∧
      (less_than_q le s t).isSome = true ∧
      (less_equal_q le s t).isSome = true) ∧
    count_for_q s q = some (count_for s q) := by
  refine ⟨fun h => ?_, fun h => ?_, rfl⟩
  · have hne : ¬(s.dirty = 0) := by omega
    simp [frontier_q, is_empty_q, less_than_q, less_equal_q, hne]
  · simp [frontier_q, is_empty_q, less_than_q, less_equal_q, h]

theorem dirty_queries_assert_witness :
    frontier_q (update_dirty (new : MutableAntichain Nat) 1 1) = none :=
  ((dirty_queries_assert natLe (update_dirty new 1 1) 0 0).1 (by decide)).1

/-- C10: every `update_iter` / `update_iter_and` call, rebuild or not,
leaves `dirty = 0`, so the asserting query methods succeed immediately
afterwards. -/
theorem update_iter_leaves_clean (le leT : T → T → Bool)
    (s : MutableAntichain T) (batch : List (T × Int)) (t : T) :
    (update_iter_and le leT s batch).1.dirty = 0 ∧
    (update_iter le leT s batch).dirty = 0 ∧
    (frontier_q (update_iter_and le leT s batch).1).isSome = true ∧
    (is_empty_q (update_iter_and le leT s batch).1).isSome = true ∧
    (less_than_q le (update_iter_and le leT s batch).1 t).isSome = true ∧
    (less_equal_q le (update_iter_and le leT s batch).1 t).isSome = true := by
  have h := update_iter_and_dirty_zero le leT s batch
  refine ⟨h, h, ?_, ?_, ?_, ?_⟩ <;>
    simp [frontier_q, is_empty_q, less_than_q, less_equal_q, h]

end MutableAntichain

namespace Antichain

/-- C3: `insert` returns false and leaves the elements unchanged when some
stored element is `less_equal` the new one; otherwise it retains exactly
the stored elements the new one is not `less_equal` to, appends the new
element, and returns true. -/
theorem antichain_insert_spec (le : T → T → Bool) (s : Antichain T) (e : T) :
    ((∃ x ∈ s.elements, le x e = true) →
      Antichain.insert le s e = (s, false)) ∧
    ((∀ x ∈ s.elements, le x e = false) →
      Antichain.insert le s e =
        ({ elements := s.elements.filter (fun x => !(le e x)) ++ [e] },
         true)) := by
  constructor
  · intro ⟨x, hx, hle⟩
    have hany : s.elements.any (fun x => le x e) = true :=
      List.any_eq_true.mpr ⟨x, hx, hle⟩
    rw [Antichain.insert, hany]
    simp
  · intro hall
    have hany : s.elements.any (fun x => le x e) = false :=
      List.any_eq_false.mpr (fun x hx => by simp [hall x hx])
    rw [Antichain.insert, hany]
    simp

theorem antichain_insert_spec_witness :
    Antichain.insert natLe { elements := [(3 : Nat)] } 1 =
      ({ elements := [(3 : Nat)].filter (fun x => !(natLe 1 x)) ++ [1] },
       true) :=
  (antichain_insert_spec natLe { elements := [3] } 1).2 (by decide)

/-- The `Antichain` states reachable from an empty or singleton antichain
by a sequence of `insert` calls. -/
inductive ReachableA (le : T → T → Bool) : Antichain T → Prop
  | new : ReachableA le Antichain.new
  | from_elem (e : T) : ReachableA le (Antichain.from_elem e)
  | insert (s : Antichain T) (e : T) :
      ReachableA le s → ReachableA le (Antichain.insert le s e).1

/-- C5: after any sequence of `insert` calls starting from an empty or
singleton antichain, no stored element is `less_equal` a distinct stored
element, and the storage holds no duplicates. -/
theorem antichain_minimality {le : T → T → Bool}
    (hrefl : ∀ a, le a a = true) {a : Antichain T} (h : ReachableA le a) :
    (∀ x ∈ a.elements, ∀ y ∈ a.elements, x ≠ y → le x y = false) ∧
    a.elements.Nodup := by
  induction h with
  | new =>
    exact ⟨fun x hx => absurd hx (List.not_mem_nil x), List.nodup_nil⟩
  | from_elem e =>
    refine ⟨?_, List.nodup_singleton e⟩
    intro x hx y hy hne
    rw [List.mem_singleton.mp hx, List.mem_singleton.mp hy] at hne
    exact absurd rfl hne
  | insert s e hs ih =>
    obtain ⟨hpair, hnd⟩ := ih
    rcases Bool.eq_false_or_eq_true (s.elements.any fun x => le x e)
      with hany | hany
    · have he : (Antichain.insert le s e).1 = s := by
        rw [Antichain.insert, hany]
        simp
      rw [he]
      exact ⟨hpair, hnd⟩
    · have he : (Antichain.insert le s e).1 =
          { elements := s.elements.filter (fun x => !(le e x)) ++ [e] } := by
        rw [Antichain.insert, hany]
        simp
      rw [he]
      have hnomem : ∀ x ∈ s.elements, ¬(le x e = true) :=
        List.any_eq_false.mp hany
      constructor
      · intro x hx y hy hne
        rcases List.mem_append.mp hx with hxf | hxe
        · rcases List.mem_append.mp hy with hyf | hye
          · exact hpair x (List.mem_of_mem_filter hxf) y
              (List.mem_of_mem_filter hyf) hne
          · have hye1 : y = e := by simpa using hye
            subst hye1
            exact Bool.eq_false_iff.mpr
              (hnomem x (List.mem_of_mem_filter hxf))
        · have hxe1 : x = e := by simpa using hxe
          rcases List.mem_append.mp hy with hyf | hye
          · have hf2 := (List.mem_filter.mp hyf).2
            rw [hxe1]
            simpa using hf2
          · have hye1 : y = e := by simpa using hye
            exact absurd (hxe1.trans hye1.symm) hne
      · refine (hnd.filter _).append (List.nodup_singleton e) ?_
        intro x hx hb
        have hx1 : x = e := by simpa using hb
        subst hx1
        exact (hnomem x (List.mem_of_mem_filter hx)) (hrefl x)

theorem antichain_minimality_witness :
    (Antichain.insert natLe { elements := ([] : List Nat) } 3).1.elements.Nodup :=
  (antichain_minimality (fun a => by simp [natLe])
    (ReachableA.insert Antichain.new 3 ReachableA.new)).2

/-- C6 as stated is false: inserting 1 into the antichain {3} evicts 3 and
returns true, so not every insert after the first returns false. -/
theorem antichain_insert_sequence_counterexample :
    (Antichain.insert natLe
      (Antichain.insert natLe { elements := ([] : List Nat) } 3).1 1).2 =
      true := by
  decide

/-- Successive `insert` calls, recording the state and the returned flag
after each step. -/
def insert_chain (le : T → T → Bool) (init : Antichain T) :
    List T → List (Antichain T × Bool)
  | [] => []
  | e :: rest =>
    (Antichain.insert le init e) ::
      insert_chain le (Antichain.insert le init e).1 rest

/-- C6 amended: inserting 3, 1, 2, 5, 4 into an empty `Antichain<u64>`
yields element lists [3], [1], [1], [1], [1]; the first two inserts return
true and the remaining three return false. -/
theorem antichain_insert_sequence :
    insert_chain natLe { elements := ([] : List Nat) } [3, 1, 2, 5, 4] =
      [({ elements := [3] }, true), ({ elements := [1] }, true),
       ({ elements := [1] }, false), ({ elements := [1] }, false),
       ({ elements := [1] }, false)] := by
  decide

end Antichain

/-- C8: on the success path, `from_args` picks cluster mode with the first
`processes` hostfile lines (or the synthesized localhost list) when
`processes > 1`, intra-process mode when only `threads > 1`, and
single-thread mode otherwise; absent options default to `threads = 1`,
`process = 0`, `processes = 1`. -/
theorem from_args_mode_selection (threads process processes : Nat)
    (lines : List String) (hostfile : Option (List String)) (report : Bool)
    (hvalid : process < processes) :
    (1 < processes → processes ≤ lines.length →
      from_args threads process processes (some lines) report =
        .ok (.cluster threads process (lines.take processes) report)) ∧
    (1 < processes →
      from_args threads process processes none report =
        .ok (.cluster threads process (default_addresses processes) report)) ∧
    (processes ≤ 1 → 1 < threads →
      from_args threads process processes hostfile report =
        .ok (.process threads)) ∧
    (processes ≤ 1 → threads ≤ 1 →
      from_args threads process processes hostfile report = .ok .thread) ∧
    from_args_opts none none none hostfile report =
      from_args 1 0 1 hostfile report := by
  refine ⟨?_, ?_, ?_, ?_, rfl⟩
  · intro hp hl
    have h1 : ¬((lines.take processes).length < processes) := by
      rw [List.length_take]
      omega
    have h2 : processes = (lines.take processes).length := by
      rw [List.length_take]
      omega
    simp only [from_args, if_pos hvalid, if_pos hp, if_neg h1, if_pos h2]
  · intro hp
    have h1 : processes = (default_addresses processes).length := by
      simp [default_addresses]
    simp only [from_args, if_pos hvalid, if_pos hp, if_pos h1]
  · intro hp ht
    simp only [from_args, if_pos hvalid, if_neg (show ¬(1 < processes) by omega),
      if_pos ht]
  · intro hp ht
    simp only [from_args, if_pos hvalid, if_neg (show ¬(1 < processes) by omega),
      if_neg (show ¬(1 < threads) by omega)]

theorem from_args_mode_selection_witness :
    from_args 2 0 2 (some ["a", "b"]) false =
      .ok (.cluster 2 0 (["a", "b"].take 2) false) :=
  (from_args_mode_selection 2 0 2 ["a", "b"] (some ["a", "b"]) false
    (by decide)).1 (by decide) (by decide)

/-- C9 as stated is false: with a one-line hostfile and two requested
processes, and likewise with an out-of-range process index, `from_args`
aborts through `assert!`/`panic!` rather than returning an `Err` string. -/
theorem from_args_err_counterexample :
    (from_args 1 0 2 (some ["host0"]) false).is_err = false ∧
    (from_args 1 2 2 none false).is_err = false ∧
    from_args 1 0 2 (some ["host0"]) false =
      .fatal "could only read fewer addresses than -n" ∧
    from_args 1 2 2 none false =
      .fatal "assertion failed: process < processes" := by
  refine ⟨rfl, rfl, rfl, rfl⟩

/-- C9 amended: insufficient hostfile lines or an invalid process index
abort configuration resolution fatally at bootstrap through a panic
(assertion failure or `panic!`), not through an `Err` result; `from_args`
itself never produces an `Err` from these conditions. -/
theorem from_args_failures_fatal (threads process processes : Nat)
    (lines : List String) (report : Bool) :
    (processes ≤ process →
      from_args threads process processes (some lines) report =
        .fatal "assertion failed: process < processes") ∧
    (process < processes → 1 < processes → lines.length < processes →
      from_args threads process processes (some lines) report =
        .fatal "could only read fewer addresses than -n") ∧
    (∀ msg hf, from_args threads process processes hf report ≠
      ArgsResult.err msg) := by
  refine ⟨?_, ?_, ?_⟩
  · intro hp
    simp only [from_args, if_neg (show ¬(process < processes) by omega)]
  · intro hv hp hl
    have h1 : (lines.take processes).length < processes := by
      rw [List.length_take]
      omega
    simp only [from_args, if_pos hv, if_pos hp, if_pos h1]
  · intro msg hf
    cases hf with
    | none =>
      simp only [from_args]
      split_ifs <;> intro heq <;> cases heq
    | some lines =>
      simp only [from_args]
      split_ifs <;> intro heq <;> cases heq

theorem from_args_failures_fatal_witness :
    from_args 1 0 2 (some []) false =
      .fatal "could only read fewer addresses than -n" :=
  (from_args_failures_fatal 1 0 2 [] false).2.1 (by decide) (by decide)
    (by decide)

end Timely
